import Mathlib

/-!
Verification development for the creact incremental tree-reconciliation engine
(src/creact.js). The JavaScript source is shallowly embedded: fibers live in an
arena (`Store`, a list indexed by fiber ids) so that the in-place mutations the
source performs (`oldFiber.effectTag = "DELETION"`, `wipFiber.child = newFiber`,
`prevSibling.sibling = newFiber`) become explicit store updates, and the
reconciliation loop is fuel-indexed to mirror the source's `while` loop.
-/

set_option autoImplicit false

namespace Creact

/-- A node description, as produced by `createElement`: a kind (the JS `type`
string), the plain attributes (`props` minus `children`), and the child
descriptions (`props.children`). -/
inductive Element where
  | mk : String → List (String × String) → List Element → Element

/-- The `type` field of a node description. -/
def Element.type : Element → String
  | .mk t _ _ => t

/-- The plain attributes of a node description. -/
def Element.attrs : Element → List (String × String)
  | .mk _ a _ => a

/-- The `props.children` list of a node description. -/
def Element.childList : Element → List Element
  | .mk _ _ c => c

/-- The props record stored on a fiber: plain attributes plus the children
descriptions (`fiber.props` in the source). -/
structure EProps where
  attrs : List (String × String)
  children : List Element

/-- The props of a node description, as copied onto a fiber by the source
(`props: element.props`). -/
def Element.props : Element → EProps
  | .mk _ a c => ⟨a, c⟩

/-- A child argument passed to `createElement`: either an element object or a
primitive value (string/number), which the source detects via
`typeof child === "object"`. -/
inductive RawChild where
  | node (e : Element)
  | prim (v : String)

/-- Embedding of `createTextElement(text)` (src/creact.js lines 17-25): a
description with the reserved kind `TEXT_ELEMENT`, a `nodeValue` prop holding
the text, and no children. -/
def createTextElement (text : String) : Element :=
  .mk "TEXT_ELEMENT" [("nodeValue", text)] []

/-- Embedding of `createElement(type, props, ...children)` (src/creact.js lines
2-14): object children are kept as-is, any other child is wrapped via
`createTextElement`. -/
def createElement (type_ : String) (attrs : List (String × String))
    (children : List RawChild) : Element :=
  .mk type_ attrs (children.map fun c =>
    match c with
    | .node e => e
    | .prim v => createTextElement v)

/-- Effect tags attached by the reconciler. A fiber fresh from a previous
commit carries no tag, modeled as `Option EffectTag` with value `none`
(the JS field is `undefined` there). -/
inductive EffectTag where
  | placement
  | update
  | deletion
  deriving DecidableEq, Repr

/-- A fiber: the mutable unit of work. `type` is `none` for the root fiber
created by `render` (the source's root object has no `type` field); `dom`,
`parent`, `child`, `sibling`, `alternate` are nullable references, modeled as
fiber/backend-node ids into the arena. -/
structure Fiber where
  type : Option String
  props : EProps
  dom : Option Nat
  parent : Option Nat
  child : Option Nat
  sibling : Option Nat
  alternate : Option Nat
  effectTag : Option EffectTag

/-- The fiber arena: JS object references become indices into this list, and
in-place field mutation becomes `List.set`. -/
abbrev Store := List Fiber

/-- Mutate the fiber at index `i` in place (a no-op on a dangling index, which
cannot arise from a live JS reference). -/
def modifyFiber (s : Store) (i : Nat) (g : Fiber → Fiber) : Store :=
  match s.get? i with
  | some f => s.set i (g f)
  | none => s

/-- The `sameType` test of `reconcileChildren`:
`oldFiber && element && element.type == oldFiber.type`. -/
def sameTypeCheck (oldFiber : Option Fiber) (element : Option Element) : Bool :=
  match oldFiber, element with
  | some of, some el => of.type == some el.type
  | _, _ => false

/-- The fiber built in the `sameType` branch of `reconcileChildren`: reuse the
old fiber's type and dom, take the new props, link `alternate` to the old
fiber, tag `UPDATE`. -/
def mkUpdateFiber (wipId oldId : Nat) (of : Fiber) (el : Element) : Fiber :=
  { type := of.type, props := el.props, dom := of.dom, parent := some wipId,
    child := none, sibling := none, alternate := some oldId,
    effectTag := some EffectTag.update }

/-- The fiber built in the `element && !sameType` branch of
`reconcileChildren`: fresh fiber with no dom and no alternate, tagged
`PLACEMENT`. -/
def mkPlacementFiber (wipId : Nat) (el : Element) : Fiber :=
  { type := some el.type, props := el.props, dom := none, parent := some wipId,
    child := none, sibling := none, alternate := none,
    effectTag := some EffectTag.placement }

/-- Result of one iteration of the `reconcileChildren` loop body. -/
structure StepOut where
  s : Store
  newId : Option Nat
  oldNext : Option Nat
  dels : List Nat

/-- Allocation part of the loop body: builds `newFiber` (an `UPDATE` fiber on a
type match, a `PLACEMENT` fiber when a new description exists without a match,
nothing when no description remains) and returns its id. -/
def allocStage (s : Store) (wipId : Nat) (element : Option Element)
    (oldFiber : Option Fiber) (oldId? : Option Nat) (same : Bool) :
    Store × Option Nat :=
  match element, oldFiber, oldId? with
  | some el, some of, some oid =>
    if same then (s ++ [mkUpdateFiber wipId oid of el], some s.length)
    else (s ++ [mkPlacementFiber wipId el], some s.length)
  | some el, _, _ => (s ++ [mkPlacementFiber wipId el], some s.length)
  | none, _, _ => (s, none)

/-- Deletion-marking part of the loop body
(`oldFiber.effectTag = "DELETION"; deletions.push(oldFiber)`). -/
def markStage (s : Store) (oldId? : Option Nat) (oldFiber : Option Fiber)
    (same : Bool) (dels : List Nat) : Store × List Nat :=
  match oldId?, oldFiber with
  | some oid, some _ =>
    if same then (s, dels)
    else (modifyFiber s oid (fun f => { f with effectTag := some EffectTag.deletion }),
          dels ++ [oid])
  | _, _ => (s, dels)

/-- Linking part of the loop body: at position 0, `wipFiber.child = newFiber`;
later, when a description exists, `prevSibling.sibling = newFiber`. The
`prev = none` fallthrough is unreachable from `reconcileChildren`: when a
description exists at a position past 0, the previous position also had a
description and hence produced a fiber. -/
def linkStage (s : Store) (wipId : Nat) (element : Option Element)
    (prev : Option Nat) (first : Bool) (newId? : Option Nat) : Store :=
  if first then modifyFiber s wipId (fun f => { f with child := newId? })
  else
    match element, prev with
    | some _, some p => modifyFiber s p (fun f => { f with sibling := newId? })
    | _, _ => s

/-- One iteration of the `reconcileChildren` loop body, in source order:
compute `sameType`, build/allocate `newFiber`, mark the old fiber for deletion
on a mismatch, advance the old cursor to `oldFiber.sibling`, link the new
fiber into the chain. -/
def reconStep (s : Store) (wipId : Nat) (element : Option Element)
    (oldId? prev : Option Nat) (first : Bool) (dels : List Nat) : StepOut :=
  let oldFiber := oldId?.bind fun i => s.get? i
  let same := sameTypeCheck oldFiber element
  let a := allocStage s wipId element oldFiber oldId? same
  let m := markStage a.1 oldId? oldFiber same dels
  let oldNext := match oldFiber with | some of => of.sibling | none => none
  ⟨linkStage m.1 wipId element prev first a.2, a.2, oldNext, m.2⟩

/-- The `while (index < elements.length || oldFiber != null)` loop of
`reconcileChildren`, fuel-indexed (the source loop would diverge on a cyclic
sibling chain; `reconcileChildren` supplies enough fuel for every well-formed
store). -/
def reconLoop (fuel : Nat) (s : Store) (wipId : Nat) (elements : List Element)
    (oldId? prev : Option Nat) (first : Bool) (dels : List Nat) :
    Store × List Nat :=
  match fuel with
  | 0 => (s, dels)
  | fuel + 1 =>
    if elements.isEmpty && oldId?.isNone then (s, dels)
    else
      let st := reconStep s wipId elements.head? oldId? prev first dels
      reconLoop fuel st.s wipId elements.tail st.oldNext st.newId false st.dels

/-- Embedding of `reconcileChildren(wipFiber, elements)` (src/creact.js lines
242-294). The old cursor starts at `wipFiber.alternate && wipFiber.alternate.child`;
`dels` threads the module-level `deletions` list. -/
def reconcileChildren (s : Store) (wipId : Nat) (elements : List Element)
    (dels : List Nat) : Store × List Nat :=
  let oldStart :=
    match s.get? wipId with
    | some w => w.alternate.bind fun a => (s.get? a).bind fun af => af.child
    | none => none
  reconLoop (s.length + elements.length + 1) s wipId elements oldStart none true dels

/-- An operation issued against the backend (DOM) during commit:
`domParent.appendChild(fiber.dom)`, `updateDom(fiber.dom, alternate.props,
fiber.props)`, or `domParent.removeChild(fiber.dom)`. -/
inductive BackendOp where
  | appendNode (parentDom childDom : Nat)
  | updateNode (dom : Nat) (prevProps nextProps : EProps)
  | removeNode (parentDom childDom : Nat)

/-- The domParent search of `commitWork`: start at `fiber.parent` and follow
`parent` links until a fiber owning a dom node is found. A `none` result
models the TypeError the source would hit on a broken parent chain. -/
def findParentDom (s : Store) : Nat → Option Nat → Option Nat
  | 0, _ => none
  | _, none => none
  | fuel + 1, some i =>
    match s.get? i with
    | none => none
    | some f =>
      match f.dom with
      | some d => some d
      | none => findParentDom s fuel f.parent

/-- Embedding of `commitDeletion(fiber, domParent)` (src/creact.js lines
122-128): remove the fiber's dom node if it owns one, otherwise recurse into
its first child (component fibers own no dom node). -/
def commitDeletion (s : Store) : Nat → Option Nat → Nat → List BackendOp
  | 0, _, _ => []
  | _, none, _ => []
  | fuel + 1, some i, domParent =>
    match s.get? i with
    | none => []
    | some f =>
      match f.dom with
      | some d => [.removeNode domParent d]
      | none => commitDeletion s fuel f.child domParent

/-- Embedding of `commitWork(fiber)` (src/creact.js lines 95-119) as the trace
of backend operations it issues: handle this fiber's effect tag, then recurse
into child and sibling. A fiber whose domParent chase fails contributes
nothing (the source would crash there). -/
def commitWork (s : Store) : Nat → Option Nat → List BackendOp
  | 0, _ => []
  | _, none => []
  | fuel + 1, some i =>
    match s.get? i with
    | none => []
    | some f =>
      match findParentDom s (s.length + 1) f.parent with
      | none => []
      | some domParent =>
        let ops : List BackendOp :=
          match f.effectTag, f.dom with
          | some EffectTag.placement, some d => [.appendNode domParent d]
          | some EffectTag.update, some d =>
            match f.alternate.bind fun a => s.get? a with
            | some alt => [.updateNode d alt.props f.props]
            | none => []
          | some EffectTag.deletion, _ => commitDeletion s (s.length + 1) (some i) domParent
          | _, _ => []
        ops ++ commitWork s fuel f.child ++ commitWork s fuel f.sibling

/-- The module-level mutable state of the engine: the fiber arena plus the
source's globals `currentRoot`, `wipRoot`, `nextUnitOfWork`, `deletions`. -/
structure Engine where
  store : Store
  currentRoot : Option Nat
  wipRoot : Option Nat
  nextUnitOfWork : Option Nat
  deletions : List Nat

/-- Embedding of `commitRoot()` (src/creact.js lines 87-92): run `commitWork`
over every fiber in `deletions`, then over `wipRoot.child`, then swap
`currentRoot = wipRoot; wipRoot = null`. Returns the new engine state and the
trace of backend operations, in order. Note the deletions list itself is not
touched here. -/
def commitRoot (e : Engine) : Engine × List BackendOp :=
  let delOps := e.deletions.foldl
    (fun acc i => acc ++ commitWork e.store (e.store.length + 1) (some i)) []
  let childOps :=
    match e.wipRoot.bind fun i => e.store.get? i with
    | some w => commitWork e.store (e.store.length + 1) w.child
    | none => []
  ({ e with currentRoot := e.wipRoot, wipRoot := none }, delOps ++ childOps)

/-- The first phase of `commitRoot`'s trace: `deletions.forEach(commitWork)`. -/
def deletionPhase (e : Engine) : List BackendOp :=
  e.deletions.foldl
    (fun acc i => acc ++ commitWork e.store (e.store.length + 1) (some i)) []

/-- The second phase of `commitRoot`'s trace: `commitWork(wipRoot.child)`,
the pass over the new work-in-progress tree. -/
def treePhase (e : Engine) : List BackendOp :=
  match e.wipRoot.bind fun i => e.store.get? i with
  | some w => commitWork e.store (e.store.length + 1) w.child
  | none => []

/-- Embedding of `render(element, container)` (src/creact.js lines 131-141):
allocate a root fiber holding the container dom whose single child description
is `element` and whose alternate is the current root, reset `deletions` to the
empty list, and arm the work loop. -/
def render (element : Element) (container : Nat) (e : Engine) : Engine :=
  let root : Fiber :=
    { type := none, props := { attrs := [], children := [element] },
      dom := some container, parent := none, child := none, sibling := none,
      alternate := e.currentRoot, effectTag := none }
  { e with store := e.store ++ [root], wipRoot := some e.store.length,
           nextUnitOfWork := some e.store.length, deletions := [] }

/-- A hook cell: `{ state, queue }`, with updater functions in enqueue order. -/
structure Hook where
  state : Int
  queue : List (Int → Int)

/-- The per-evaluation hook bookkeeping of the source: `wipFiber.alternate.hooks`
(absent when the fiber has no alternate), the `wipFiber.hooks` list being
built, and the module-level `hookIndex` cursor. -/
structure WipEval where
  altHooks : Option (List Hook)
  hooks : List Hook
  hookIndex : Nat

/-- Embedding of the body of `useState(initial)` (src/creact.js lines 202-215,
229-231) for a live component evaluation: read the alternate hook at the
current index, fold its queued updaters in enqueue order over its state (or
start from `initial` when there is no alternate hook), push the resulting hook
cell with an empty queue, advance the index, and return the exposed state. -/
def useStateStep (w : WipEval) (initial : Int) : WipEval × Int :=
  let oldHook := w.altHooks.bind fun hs => hs.get? w.hookIndex
  let state0 := match oldHook with | some h => h.state | none => initial
  let actions := match oldHook with | some h => h.queue | none => []
  let state := actions.foldl (fun st a => a st) state0
  let hook : Hook := { state := state, queue := [] }
  ({ w with hooks := w.hooks ++ [hook], hookIndex := w.hookIndex + 1 }, state)

/-- Embedding of a `useState` call including the source's unguarded read of
`wipFiber.alternate`: outside a component evaluation the module-level
`wipFiber` is null and the call crashes with a generic TypeError, modeled as
`none`. No dedicated hook-identity check exists in the source. -/
def useStateCall (wip : Option WipEval) (initial : Int) : Option (WipEval × Int) :=
  match wip with
  | none => none
  | some w => some (useStateStep w initial)

/-- Evaluation of a single-hook function component (the repository's `Counter`
shape) by `updateFunctionComponent`: reset `hooks` to `[]` and `hookIndex` to
0, then run the body, which calls `useState initial` once; the fiber's new
hook list results. -/
def evalOneHook (alt : Option (List Hook)) (initial : Int) : List Hook :=
  ((useStateStep { altHooks := alt, hooks := [], hookIndex := 0 } initial).1).hooks

/-- The committed state of a single-component app: the hook list of the
component fiber in the current tree (`none` before the first commit). -/
structure CompApp where
  current : Option (List Hook)

/-- One full render-and-commit cycle of the single-hook component: the new
work-in-progress fiber's alternate is the committed fiber, the body re-runs
`useState initial`, and at commit the work-in-progress fiber becomes current. -/
def renderCommitOne (app : CompApp) (initial : Int) : CompApp :=
  { current := some (evalOneHook app.current initial) }

/-- Invoking the `setState` closure exposed by the most recent commit: it
pushes the updater onto the queue of the hook cell it captured — the cell that
became part of the current tree at that commit — and supersedes any in-flight
pass (the scheduling part is modeled by `setStateSchedule`). -/
def setStateApp (a : Int → Int) (app : CompApp) : CompApp :=
  { current := app.current.map fun hs =>
      match hs with
      | [] => []
      | h :: rest => { h with queue := h.queue ++ [a] } :: rest }

/-- N clicks on the committed counter, each `setState (c => c + 1)` followed by
a full render-and-commit cycle; cycle 0 is the initial render-and-commit. -/
def counterCycles (initial : Int) : Nat → CompApp
  | 0 => renderCommitOne ⟨none⟩ initial
  | n + 1 => renderCommitOne (setStateApp (fun c => c + 1) (counterCycles initial n)) initial

/-- A root fiber as read by `setState`: its dom node and props children. -/
structure RootFiber where
  dom : Option Nat
  children : List Element

/-- The work-in-progress root `setState` builds: `currentRoot.dom`,
`currentRoot.props`, and `alternate: currentRoot`. -/
structure WipRootFiber where
  dom : Option Nat
  children : List Element
  alternate : RootFiber

/-- The scheduler-facing globals touched by `setState`. -/
structure SchedState where
  currentRoot : Option RootFiber
  wipRoot : Option WipRootFiber
  nextUnitOfWork : Option WipRootFiber
  deletions : List Nat

/-- Embedding of the `setState` closure (src/creact.js lines 217-226): push
the updater onto the captured hook cell's queue, then read `currentRoot.dom`
and `currentRoot.props` to build a fresh work-in-progress root whose alternate
is the current root, arm the scheduler with it, and reset `deletions`. When
`currentRoot` is null the read crashes (a TypeError), modeled as a `none`
second component — the queue push has already happened at that point. -/
def setStateSchedule (queue : List (Int → Int)) (a : Int → Int)
    (s : SchedState) : List (Int → Int) × Option SchedState :=
  (queue ++ [a],
    match s.currentRoot with
    | none => none
    | some cr =>
      some { currentRoot := some cr,
             wipRoot := some ⟨cr.dom, cr.children, cr⟩,
             nextUnitOfWork := some ⟨cr.dom, cr.children, cr⟩,
             deletions := [] })

/-! Concrete fixtures used by the closed theorems below. -/

/-- A `div` description with no attributes and no children. -/
def elDiv : Element := .mk "div" [] []

/-- A `span` description with no attributes and no children. -/
def elSpan : Element := .mk "span" [] []

/-- Committed parent fiber (current tree) whose child chain is A, B, C. -/
def fOldParent : Fiber := ⟨some "div", ⟨[], []⟩, some 10, none, some 1, none, none, none⟩

/-- Old first child A: a `div`, sibling B. -/
def fA : Fiber := ⟨some "div", ⟨[], []⟩, some 11, some 0, none, some 2, none, some .placement⟩

/-- Old second child B: a `div`, sibling C. -/
def fB : Fiber := ⟨some "div", ⟨[], []⟩, some 12, some 0, none, some 3, none, some .placement⟩

/-- Old third child C: a `span`, last sibling. -/
def fC : Fiber := ⟨some "span", ⟨[], []⟩, some 13, some 0, none, none, none, some .placement⟩

/-- Work-in-progress parent fiber whose alternate is `fOldParent` (id 0). -/
def fWipParent : Fiber := ⟨some "div", ⟨[], []⟩, some 10, none, none, none, some 0, some .update⟩

/-- Arena for the spec's positional-diff scenario: old child kinds
div, div, span under fiber 0; fiber 4 is the work-in-progress parent. -/
def storeABC : Store := [fOldParent, fA, fB, fC, fWipParent]

/-- Root fiber of a two-fiber engine whose deletions list is nonempty. -/
def rootNoChild : Fiber := ⟨none, ⟨[], []⟩, some 0, none, none, none, none, none⟩

/-- A deleted `div` fiber owning dom node 1, child of the root. -/
def fDeletedDiv : Fiber := ⟨some "div", ⟨[], []⟩, some 1, some 0, none, none, none, some .deletion⟩

/-- Engine state about to commit: wipRoot is fiber 0, deletions hold fiber 1. -/
def engine3 : Engine := ⟨[rootNoChild, fDeletedDiv], some 0, some 0, none, [1]⟩

/-- Root fiber whose new child chain is the placed `span` (fiber 2). -/
def rootWithSpan : Fiber := ⟨none, ⟨[], []⟩, some 0, none, some 2, none, none, none⟩

/-- A freshly placed `span` fiber owning dom node 2. -/
def fPlacedSpan : Fiber := ⟨some "span", ⟨[], []⟩, some 2, some 0, none, none, none, some .placement⟩

/-- Engine state about to commit a pass that both deletes fiber 1 and places
fiber 2. -/
def engine7 : Engine := ⟨[rootWithSpan, fDeletedDiv, fPlacedSpan], none, some 0, none, [1]⟩

/-- Committed current-tree parent owning one old `div` child (fiber 1). -/
def fNoopParent : Fiber := ⟨some "div", ⟨[], []⟩, some 10, none, some 1, none, none, none⟩

/-- The old `div` child, last sibling. -/
def fNoopChild : Fiber := ⟨some "div", ⟨[], []⟩, some 11, some 0, none, none, none, some .placement⟩

/-- Work-in-progress parent whose alternate is `fNoopParent` (id 0). -/
def fNoopWip : Fiber := ⟨some "div", ⟨[], []⟩, some 10, none, none, none, some 0, some .update⟩

/-- Arena for the no-op re-render scenario: old chain is a single `div`. -/
def storeNoop : Store := [fNoopParent, fNoopChild, fNoopWip]

/-- A hook cell holding state 3 with queued updaters double-then-increment. -/
def hookTimes2Plus1 : Hook := ⟨3, [fun x => x * 2, fun x => x + 1]⟩

/-- Committed single-component app whose hook cell is `hookTimes2Plus1`. -/
def appTimes2Plus1 : CompApp := ⟨some [hookTimes2Plus1]⟩

/-- Evaluation state whose alternate recorded zero hook calls: the present
evaluation calling `useState` makes the hook call count vary across
evaluations of the same fiber. -/
def wipNoAltHook : WipEval := ⟨some [], [], 0⟩

/-- Scheduler state before any commit: `currentRoot` is null. -/
def schedBeforeCommit : SchedState := ⟨none, none, none, []⟩

/-- Scheduler state after a commit: `currentRoot` holds a root with dom 0. -/
def schedAfterCommit : SchedState := ⟨some ⟨some 0, [elDiv]⟩, none, none, [5]⟩

/-- The sibling chain starting at a fiber reference: `SibChain s start ids`
holds when following `sibling` links from `start` visits exactly the fibers
`ids` and terminates. -/
inductive SibChain (s : Store) : Option Nat → List Nat → Prop
  | nil : SibChain s none []
  | cons (i : Nat) (f : Fiber) (rest : List Nat) :
      s.get? i = some f → SibChain s f.sibling rest → SibChain s (some i) (i :: rest)

/-- Read-only except for the effect tag: `f'` agrees with `f` on every field,
save that its effect tag may have been flipped to `DELETION`. This is the
precise extent to which the render phase touches fibers of the current tree. -/
def PreservedExceptTag (f f' : Fiber) : Prop :=
  f'.type = f.type ∧ f'.props = f.props ∧ f'.dom = f.dom ∧ f'.parent = f.parent ∧
  f'.child = f.child ∧ f'.sibling = f.sibling ∧ f'.alternate = f.alternate ∧
  (f'.effectTag = f.effectTag ∨ f'.effectTag = some EffectTag.deletion)

/-! Theorems. -/

/-- The trace of `commitRoot` is the deletions pass followed by the pass over
the new tree. -/
theorem commitRoot_trace (e : Engine) : (commitRoot e).2 = deletionPhase e ++ treePhase e := rfl

/-- Modifying a fiber keeps the arena's size. -/
theorem modifyFiber_length (s : Store) (i : Nat) (g : Fiber → Fiber) :
    (modifyFiber s i g).length = s.length := by
  unfold modifyFiber
  cases h : s.get? i <;> simp

/-- Modifying fiber `i` leaves every other index unchanged. -/
theorem modifyFiber_get_ne (s : Store) (i j : Nat) (g : Fiber → Fiber) (h : j ≠ i) :
    (modifyFiber s i g).get? j = s.get? j := by
  unfold modifyFiber
  cases hg : s.get? i
  · rfl
  · exact List.get?_set_ne _ _ (fun he => h he.symm)

/-- Modifying fiber `i` applies `g` at index `i`. -/
theorem modifyFiber_get_self (s : Store) (i : Nat) (g : Fiber → Fiber) (f : Fiber)
    (h : s.get? i = some f) : (modifyFiber s i g).get? i = some (g f) := by
  unfold modifyFiber
  rw [h]
  exact List.get?_set_eq_of_lt _ (List.get?_eq_some.mp h).1

/-- A modification that does not touch the effect tag preserves every fiber's
effect tag. -/
theorem modifyFiber_effectTag (s : Store) (i : Nat) (g : Fiber → Fiber) (j : Nat) (f : Fiber)
    (hg : ∀ x, (g x).effectTag = x.effectTag) (hj : s.get? j = some f) :
    ∃ f', (modifyFiber s i g).get? j = some f' ∧ f'.effectTag = f.effectTag := by
  by_cases hij : j = i
  · subst hij
    exact ⟨g f, modifyFiber_get_self s j g f hj, hg f⟩
  · exact ⟨f, (modifyFiber_get_ne s i j g hij).trans hj, rfl⟩

/-- Allocation leaves the pre-existing part of the arena unchanged. -/
theorem allocStage_get_lt (s : Store) (w : Nat) (el : Option Element) (of : Option Fiber)
    (o : Option Nat) (b : Bool) (j : Nat) (hj : j < s.length) :
    (allocStage s w el of o b).1.get? j = s.get? j := by
  unfold allocStage
  split
  · split <;> exact List.get?_append hj
  · exact List.get?_append hj
  · rfl

/-- Allocation either leaves the arena alone and returns no id, or appends a
single fiber and returns its id (the old arena size). -/
theorem allocStage_shape (s : Store) (w : Nat) (el : Option Element) (of : Option Fiber)
    (o : Option Nat) (b : Bool) :
    allocStage s w el of o b = (s, none) ∨
    ∃ nf, allocStage s w el of o b = (s ++ [nf], some s.length) := by
  unfold allocStage
  split
  · split
    · exact Or.inr ⟨_, rfl⟩
    · exact Or.inr ⟨_, rfl⟩
  · exact Or.inr ⟨_, rfl⟩
  · exact Or.inl rfl

/-- A fiber id returned by allocation is the old arena size, and the arena
grew by exactly one. -/
theorem allocStage_newId (s : Store) (w : Nat) (el : Option Element) (of : Option Fiber)
    (o : Option Nat) (b : Bool) (n : Nat) (h : (allocStage s w el of o b).2 = some n) :
    n = s.length ∧ (allocStage s w el of o b).1.length = s.length + 1 := by
  rcases allocStage_shape s w el of o b with hsh | ⟨nf, hsh⟩
  · rw [hsh] at h
    simp at h
  · rw [hsh] at h ⊢
    simp_all [List.length_append]

/-- Marking keeps the arena's size. -/
theorem markStage_length (s : Store) (o : Option Nat) (of : Option Fiber) (b : Bool)
    (dels : List Nat) : (markStage s o of b dels).1.length = s.length := by
  rcases o with _ | oid <;> rcases of with _ | g <;> try rfl
  simp only [markStage]
  split
  · rfl
  · exact modifyFiber_length ..

/-- Marking appends to the deletions list. -/
theorem markStage_dels (s : Store) (o : Option Nat) (of : Option Fiber) (b : Bool)
    (dels : List Nat) : ∃ t, (markStage s o of b dels).2 = dels ++ t := by
  rcases o with _ | oid
  · exact ⟨[], by simp [markStage]⟩
  · rcases of with _ | g
    · exact ⟨[], by simp [markStage]⟩
    · simp only [markStage]
      split
      · exact ⟨[], by simp⟩
      · exact ⟨[oid], rfl⟩

/-- After marking, every fiber either is unchanged or had only its effect tag
flipped to `DELETION`. -/
theorem markStage_get (s : Store) (o : Option Nat) (of : Option Fiber) (b : Bool)
    (dels : List Nat) (j : Nat) (f : Fiber) (hj : s.get? j = some f) :
    (markStage s o of b dels).1.get? j = some f ∨
    (markStage s o of b dels).1.get? j = some { f with effectTag := some EffectTag.deletion } := by
  rcases o with _ | oid <;> rcases of with _ | g <;> try exact Or.inl hj
  simp only [markStage]
  split
  · exact Or.inl hj
  · by_cases hoj : j = oid
    · subst hoj
      exact Or.inr (modifyFiber_get_self s j _ f hj)
    · exact Or.inl ((modifyFiber_get_ne s oid j _ hoj).trans hj)

/-- Linking keeps the arena's size. -/
theorem linkStage_length (s : Store) (w : Nat) (el : Option Element) (p : Option Nat)
    (fi : Bool) (n : Option Nat) : (linkStage s w el p fi n).length = s.length := by
  unfold linkStage
  split
  · exact modifyFiber_length ..
  · rcases el with _ | el <;> rcases p with _ | p <;> first | rfl | exact modifyFiber_length ..

/-- Linking leaves every index other than the work-in-progress fiber and the
previous sibling unchanged. -/
theorem linkStage_get_ne (s : Store) (w : Nat) (el : Option Element) (p : Option Nat)
    (fi : Bool) (n : Option Nat) (j : Nat) (hw : j ≠ w) (hp : ∀ q, p = some q → j ≠ q) :
    (linkStage s w el p fi n).get? j = s.get? j := by
  unfold linkStage
  split
  · exact modifyFiber_get_ne s w j _ hw
  · rcases el with _ | el <;> rcases p with _ | p <;>
      first | rfl | exact modifyFiber_get_ne s p j _ (hp p rfl)

/-- Linking never touches an effect tag. -/
theorem linkStage_effectTag (s : Store) (w : Nat) (el : Option Element) (p : Option Nat)
    (fi : Bool) (n : Option Nat) (j : Nat) (f : Fiber) (hj : s.get? j = some f) :
    ∃ f', (linkStage s w el p fi n).get? j = some f' ∧ f'.effectTag = f.effectTag := by
  unfold linkStage
  split
  · exact modifyFiber_effectTag s w _ j f (fun _ => rfl) hj
  · rcases el with _ | el <;> rcases p with _ | p <;>
      first
      | exact ⟨f, hj, rfl⟩
      | exact modifyFiber_effectTag s p _ j f (fun _ => rfl) hj

/-- Every fiber is read-only-except-tag with respect to itself. -/
theorem preservedExceptTag_refl (f : Fiber) : PreservedExceptTag f f :=
  ⟨rfl, rfl, rfl, rfl, rfl, rfl, rfl, Or.inl rfl⟩

/-- Flipping only the effect tag to `DELETION` is read-only-except-tag. -/
theorem preservedExceptTag_mark (f : Fiber) :
    PreservedExceptTag f { f with effectTag := some EffectTag.deletion } :=
  ⟨rfl, rfl, rfl, rfl, rfl, rfl, rfl, Or.inr rfl⟩

/-- Read-only-except-tag composes. -/
theorem preservedExceptTag_trans {f g h : Fiber}
    (a : PreservedExceptTag f g) (b : PreservedExceptTag g h) : PreservedExceptTag f h := by
  obtain ⟨t1, p1, d1, pa1, c1, si1, al1, e1⟩ := a
  obtain ⟨t2, p2, d2, pa2, c2, si2, al2, e2⟩ := b
  refine ⟨t2.trans t1, p2.trans p1, d2.trans d1, pa2.trans pa1, c2.trans c1,
    si2.trans si1, al2.trans al1, ?_⟩
  rcases e2 with e2 | e2
  · rcases e1 with e1 | e1
    · exact Or.inl (e2.trans e1)
    · exact Or.inr (e2.trans e1)
  · exact Or.inr e2

/-- One loop iteration leaves every fiber other than the work-in-progress
parent and the previous sibling read-only except for a possible `DELETION`
mark. -/
theorem reconStep_preserves_fiber (s : Store) (w : Nat) (el : Option Element)
    (o p : Option Nat) (fi : Bool) (dels : List Nat) (j : Nat) (f : Fiber)
    (hj : s.get? j = some f) (hw : j ≠ w) (hp : ∀ q, p = some q → j ≠ q) :
    ∃ f', (reconStep s w el o p fi dels).s.get? j = some f' ∧ PreservedExceptTag f f' := by
  have hlt : j < s.length := (List.get?_eq_some.mp hj).1
  simp only [reconStep]
  rw [linkStage_get_ne _ _ _ _ _ _ _ hw hp]
  have h1 : (allocStage s w el (o.bind fun i => s.get? i) o
      (sameTypeCheck (o.bind fun i => s.get? i) el)).1.get? j = some f := by
    rw [allocStage_get_lt _ _ _ _ _ _ _ hlt]
    exact hj
  rcases markStage_get _ o _ (sameTypeCheck (o.bind fun i => s.get? i) el) dels j f h1 with
    h2 | h2
  · exact ⟨f, h2, preservedExceptTag_refl f⟩
  · exact ⟨_, h2, preservedExceptTag_mark f⟩

/-- A fiber id produced by one loop iteration is the pre-iteration arena
size. -/
theorem reconStep_newId (s : Store) (w : Nat) (el : Option Element) (o p : Option Nat)
    (fi : Bool) (dels : List Nat) (n : Nat)
    (h : (reconStep s w el o p fi dels).newId = some n) : n = s.length := by
  simp only [reconStep] at h
  exact (allocStage_newId _ _ _ _ _ _ _ h).1

/-- The whole reconciliation loop leaves every fiber other than the
work-in-progress parent and the running previous-sibling cursor read-only
except for a possible `DELETION` mark. -/
theorem reconLoop_preserves (fuel : Nat) :
    ∀ (s : Store) (w : Nat) (els : List Element) (o p : Option Nat) (fi : Bool)
      (dels : List Nat) (j : Nat) (f : Fiber),
    s.get? j = some f → j ≠ w → (∀ q, p = some q → j ≠ q) →
    ∃ f', (reconLoop fuel s w els o p fi dels).1.get? j = some f' ∧
      PreservedExceptTag f f' := by
  induction fuel with
  | zero =>
    intro s w els o p fi dels j f hj _ _
    exact ⟨f, hj, preservedExceptTag_refl f⟩
  | succ fuel ih =>
    intro s w els o p fi dels j f hj hw hp
    simp only [reconLoop]
    split
    · exact ⟨f, hj, preservedExceptTag_refl f⟩
    · obtain ⟨f1, hf1, hpre1⟩ := reconStep_preserves_fiber s w els.head? o p fi dels j f hj hw hp
      have hlt : j < s.length := (List.get?_eq_some.mp hj).1
      obtain ⟨f2, hf2, hpre2⟩ := ih (reconStep s w els.head? o p fi dels).s w els.tail
        (reconStep s w els.head? o p fi dels).oldNext
        (reconStep s w els.head? o p fi dels).newId false
        (reconStep s w els.head? o p fi dels).dels j f1 hf1 hw
        (fun q hq => by rw [reconStep_newId s w els.head? o p fi dels q hq]; omega)
      exact ⟨f2, hf2, preservedExceptTag_trans hpre1 hpre2⟩

/-- C2 amended: during a render pass the work-in-progress tree is the one
being built, and `reconcileChildren` leaves every pre-existing fiber other
than the work-in-progress parent — in particular every fiber reachable from
the current root — untouched in all fields except that a positionally removed
fiber's effect tag is flipped to `DELETION` in place. -/
theorem reconcile_preserves_current_tree (s : Store) (wipId : Nat)
    (elements : List Element) (dels : List Nat) (j : Nat) (f : Fiber)
    (hj : s.get? j = some f) (hw : j ≠ wipId) :
    ∃ f', (reconcileChildren s wipId elements dels).1.get? j = some f' ∧
      PreservedExceptTag f f' := by
  unfold reconcileChildren
  exact reconLoop_preserves _ s wipId elements _ none true dels j f hj hw
    (fun q hq => by simp at hq)

/-- Witness for `reconcile_preserves_current_tree` at the concrete scenario of
`storeABC`: the old fiber B (id 2) survives reconciliation with every field
intact except its effect tag. -/
theorem reconcile_preserves_current_tree_witness :
    ∃ f', (reconcileChildren storeABC 4 [elDiv, elSpan] []).1.get? 2 = some f' ∧
      PreservedExceptTag fB f' :=
  reconcile_preserves_current_tree storeABC 4 [elDiv, elSpan] [] 2 fB rfl (by decide)

/-- Linking exposes a just-appended fiber at its fresh id untouched, provided
the link targets lie inside the old arena. -/
theorem linkStage_get_concat (s : Store) (w : Nat) (el : Option Element) (p : Option Nat)
    (fi : Bool) (n : Option Nat) (nf : Fiber) (hw : w < s.length)
    (hp : ∀ q, p = some q → q < s.length) :
    (linkStage (s ++ [nf]) w el p fi n).get? s.length = some nf := by
  rw [linkStage_get_ne _ _ _ _ _ _ _ (by omega) (fun q hq => by have := hp q hq; omega)]
  exact List.get?_concat_length s nf

/-- Every fiber id on a sibling chain is a live arena index. -/
theorem sibChain_mem_lt {s : Store} {o : Option Nat} {ids : List Nat}
    (h : SibChain s o ids) : ∀ i ∈ ids, i < s.length := by
  induction h with
  | nil => intro i hi; simp at hi
  | cons i f rest hget _ ih =>
    intro j hj
    rcases List.mem_cons.mp hj with rfl | hj
    · exact (List.get?_eq_some.mp hget).1
    · exact ih j hj

/-- A sibling chain survives any store change that leaves its fibers
untouched. -/
theorem sibChain_congr {s s' : Store} {o : Option Nat} {ids : List Nat}
    (h : SibChain s o ids) (hagree : ∀ i ∈ ids, s'.get? i = s.get? i) :
    SibChain s' o ids := by
  induction h with
  | nil => exact SibChain.nil
  | cons i f rest hget _ ih =>
    exact SibChain.cons i f rest ((hagree i (by simp)).trans hget)
      (ih fun j hj => hagree j (by simp [hj]))

/-- On a positional type match, one loop iteration allocates exactly the
`UPDATE` fiber reusing the old fiber's dom, adds nothing to the deletions
list, and advances the old cursor to the old fiber's sibling. -/
theorem reconStep_matched (s : Store) (w oid : Nat) (el : Element) (of : Fiber)
    (p : Option Nat) (fi : Bool) (dels : List Nat)
    (ho : s.get? oid = some of) (hty : of.type = some el.type) :
    reconStep s w (some el) (some oid) p fi dels =
      ⟨linkStage (s ++ [mkUpdateFiber w oid of el]) w (some el) p fi (some s.length),
       some s.length, of.sibling, dels⟩ := by
  simp only [reconStep, Option.some_bind, ho, sameTypeCheck, hty, beq_self_eq_true,
    allocStage, if_true, markStage]

/-- When the old sibling chain matches the new descriptions type-for-type in
lock step, the reconciliation loop adds nothing to the deletions list, every
fiber it allocates carries the `UPDATE` tag, and no pre-existing fiber's
effect tag changes. -/
theorem reconLoop_noop (ids : List Nat) :
    ∀ (fuel : Nat) (s : Store) (wipId : Nat) (elements : List Element)
      (o p : Option Nat) (fi : Bool) (dels : List Nat),
    SibChain s o ids →
    ids.map (fun i => (s.get? i).bind Fiber.type) = elements.map (fun e => some e.type) →
    wipId < s.length →
    wipId ∉ ids →
    (∀ q, p = some q → q < s.length ∧ q ∉ ids) →
    (reconLoop fuel s wipId elements o p fi dels).2 = dels ∧
    (∀ j g, s.length ≤ j →
      (reconLoop fuel s wipId elements o p fi dels).1.get? j = some g →
      g.effectTag = some EffectTag.update) ∧
    (∀ j f, s.get? j = some f →
      ∃ f', (reconLoop fuel s wipId elements o p fi dels).1.get? j = some f' ∧
        f'.effectTag = f.effectTag) := by
  induction ids with
  | nil =>
    intro fuel s wipId elements o p fi dels hchain htypes _ _ _
    cases hchain
    have hel : elements = [] := by
      cases elements with
      | nil => rfl
      | cons e es => simp at htypes
    subst hel
    have hfix : reconLoop fuel s wipId [] none p fi dels = (s, dels) := by
      cases fuel with
      | zero => rfl
      | succ fuel => simp [reconLoop]
    rw [hfix]
    refine ⟨rfl, ?_, ?_⟩
    · intro j g hle hg
      rw [List.get?_eq_none.mpr hle] at hg
      exact Option.noConfusion hg
    · intro j f hf
      exact ⟨f, hf, rfl⟩
  | cons i rest ih =>
    intro fuel s wipId elements o p fi dels hchain htypes hw hnin hprev
    cases hchain with
    | cons _ f _ hget hrest =>
      cases elements with
      | nil => simp at htypes
      | cons el els =>
        simp only [List.map_cons, List.cons.injEq] at htypes
        have htyHead : f.type = some el.type := by
          have h := htypes.1
          rwa [hget] at h
        cases fuel with
        | zero =>
          refine ⟨rfl, ?_, ?_⟩
          · intro j g hle hg
            rw [show (reconLoop 0 s wipId (el :: els) (some i) p fi dels).1 = s from rfl,
              List.get?_eq_none.mpr hle] at hg
            exact Option.noConfusion hg
          · intro j g hg
            exact ⟨g, hg, rfl⟩
        | succ fuel =>
          have hcond : ¬((el :: els).isEmpty && (some i).isNone = true) := by simp
          rw [show reconLoop (fuel + 1) s wipId (el :: els) (some i) p fi dels =
              reconLoop fuel (reconStep s wipId (el :: els).head? (some i) p fi dels).s
                wipId (el :: els).tail
                (reconStep s wipId (el :: els).head? (some i) p fi dels).oldNext
                (reconStep s wipId (el :: els).head? (some i) p fi dels).newId false
                (reconStep s wipId (el :: els).head? (some i) p fi dels).dels from by
            simp [reconLoop]]
          rw [show (el :: els).head? = some el from rfl,
            show (el :: els).tail = els from rfl,
            reconStep_matched s wipId i el f p fi dels hget htyHead]
          dsimp only
          have hilt : i < s.length := (List.get?_eq_some.mp hget).1
          have hrestlt : ∀ r ∈ rest, r < s.length := fun r hr =>
            sibChain_mem_lt hrest r hr
          have hninr : wipId ∉ rest := fun hr => hnin (List.mem_cons_of_mem i hr)
          have hagree : ∀ r ∈ rest,
              (linkStage (s ++ [mkUpdateFiber wipId i f el]) wipId (some el) p fi
                (some s.length)).get? r = s.get? r := by
            intro r hr
            rw [linkStage_get_ne (s ++ [mkUpdateFiber wipId i f el]) wipId (some el) p fi
              (some s.length) r
              (fun he => hninr (he ▸ hr))
              (fun q hq he => (hprev q hq).2 (List.mem_cons_of_mem i (he ▸ hr))),
              List.get?_append (hrestlt r hr)]
          have hs1len : (linkStage (s ++ [mkUpdateFiber wipId i f el]) wipId (some el) p fi
              (some s.length)).length = s.length + 1 := by
            rw [linkStage_length, List.length_append]
            rfl
          have hnew : (linkStage (s ++ [mkUpdateFiber wipId i f el]) wipId (some el) p fi
              (some s.length)).get? s.length = some (mkUpdateFiber wipId i f el) :=
            linkStage_get_concat s wipId (some el) p fi (some s.length) _ hw
              (fun q hq => (hprev q hq).1)
          have hsurv : ∀ j g, s.get? j = some g →
              ∃ g', (linkStage (s ++ [mkUpdateFiber wipId i f el]) wipId (some el) p fi
                (some s.length)).get? j = some g' ∧ g'.effectTag = g.effectTag := by
            intro j g hjg
            have hjlt : j < s.length := (List.get?_eq_some.mp hjg).1
            exact linkStage_effectTag _ _ _ _ _ _ j g
              (by rw [List.get?_append hjlt]; exact hjg)
          obtain ⟨ih1, ih2, ih3⟩ := ih fuel
            (linkStage (s ++ [mkUpdateFiber wipId i f el]) wipId (some el) p fi
              (some s.length))
            wipId els f.sibling (some s.length) false dels
            (sibChain_congr hrest hagree)
            (by
              rw [List.map_congr_left (fun r hr => by rw [hagree r hr])]
              exact htypes.2)
            (by omega)
            hninr
            (by
              intro q hq
              have hq' : q = s.length := by
                injection hq with h
                exact h.symm
              subst hq'
              exact ⟨by omega, fun hr => by have := hrestlt _ hr; omega⟩)
          refine ⟨ih1, ?_, ?_⟩
          · intro j g hle hg
            by_cases hj : j = s.length
            · subst hj
              obtain ⟨g', hg', htag⟩ := ih3 s.length (mkUpdateFiber wipId i f el) hnew
              rw [hg] at hg'
              cases hg'
              exact htag
            · exact ih2 j g (by omega) hg
          · intro j g hjg
            obtain ⟨g1, hg1, ht1⟩ := hsurv j g hjg
            obtain ⟨g2, hg2, ht2⟩ := ih3 j g1 hg1
            exact ⟨g2, hg2, ht2.trans ht1⟩

/-- C6: re-reconciling a child list whose kinds coincide position-for-position
with the committed chain (a no-op re-render) adds nothing to the deletions
list, tags every fiber it creates `UPDATE` — even though the attributes may be
unchanged — and flips no existing fiber to `DELETION`: the work-in-progress
chain contains zero `PLACEMENT` and zero `DELETION` fibers. -/
theorem reconcile_identical_is_all_updates (s : Store) (wipId : Nat)
    (elements : List Element) (dels : List Nat) (ids : List Nat) (w af : Fiber) (a : Nat)
    (hwip : s.get? wipId = some w) (halt : w.alternate = some a)
    (haf : s.get? a = some af) (hchain : SibChain s af.child ids)
    (htypes : ids.map (fun i => (s.get? i).bind Fiber.type) =
      elements.map (fun e => some e.type))
    (hnin : wipId ∉ ids) :
    (reconcileChildren s wipId elements dels).2 = dels ∧
    (∀ j g, s.length ≤ j →
      (reconcileChildren s wipId elements dels).1.get? j = some g →
      g.effectTag = some EffectTag.update) ∧
    (∀ j f, s.get? j = some f →
      ∃ f', (reconcileChildren s wipId elements dels).1.get? j = some f' ∧
        f'.effectTag = f.effectTag) := by
  have hw : wipId < s.length := (List.get?_eq_some.mp hwip).1
  unfold reconcileChildren
  simp only [hwip, halt, haf, Option.some_bind]
  exact reconLoop_noop ids _ s wipId elements af.child none true dels hchain htypes hw hnin
    (fun q hq => by simp at hq)

/-- Witness for `reconcile_identical_is_all_updates` on `storeNoop`:
re-rendering the single `div` child yields no deletions and tags the new
fiber (id 3) `UPDATE`. -/
theorem reconcile_identical_is_all_updates_witness :
    (reconcileChildren storeNoop 2 [elDiv] []).2 = [] ∧
    ((reconcileChildren storeNoop 2 [elDiv] []).1.get? 3).map Fiber.effectTag =
      some (some EffectTag.update) := by
  have h := reconcile_identical_is_all_updates storeNoop 2 [elDiv] [] [1]
    fNoopWip fNoopParent 0 rfl rfl rfl
    (SibChain.cons 1 fNoopChild [] rfl SibChain.nil) rfl (by decide)
  refine ⟨h.1, ?_⟩
  have hg : (reconcileChildren storeNoop 2 [elDiv] []).1.get? 3 =
      some (mkUpdateFiber 2 1 fNoopChild elDiv) := rfl
  have htag := h.2.1 3 (mkUpdateFiber 2 1 fNoopChild elDiv) (by decide) hg
  rw [hg]
  simp [htag]

/-- C9: every non-object child argument of `createElement` is replaced, at its
original position, by a `TEXT_ELEMENT` description carrying the value as
`nodeValue` and having no children, while object children are kept unchanged
in order. -/
theorem createElement_wraps_primitive_children (t : String)
    (attrs : List (String × String)) (children : List RawChild) :
    (createElement t attrs children).childList.length = children.length ∧
    (∀ i v, children.get? i = some (.prim v) →
      (createElement t attrs children).childList.get? i =
        some (Element.mk "TEXT_ELEMENT" [("nodeValue", v)] [])) ∧
    (∀ i e, children.get? i = some (.node e) →
      (createElement t attrs children).childList.get? i = some e) := by
  refine ⟨by simp [createElement, Element.childList], ?_, ?_⟩ <;>
    intro i x h <;> simp only [List.get?_eq_getElem?] at h ⊢ <;>
    simp [createElement, Element.childList, h, createTextElement]

/-- Witness for `createElement_wraps_primitive_children` at a concrete call
with one primitive and one object child. -/
theorem createElement_wraps_primitive_children_witness :
    (createElement "div" [] [RawChild.prim "hi", RawChild.node elDiv]).childList.get? 0 =
      some (Element.mk "TEXT_ELEMENT" [("nodeValue", "hi")] []) ∧
    (createElement "div" [] [RawChild.prim "hi", RawChild.node elDiv]).childList.get? 1 =
      some elDiv :=
  ⟨(createElement_wraps_primitive_children "div" [] _).2.1 0 "hi" rfl,
   (createElement_wraps_primitive_children "div" [] _).2.2 1 elDiv rfl⟩

/-- C1: reconciling old child kinds div, div, span against new descriptions
div, span yields the chain UPDATE(div) at position 0 then PLACEMENT(span) at
position 1 (fibers 5 and 6), and appends exactly the old second fiber (B, id
2) and the old third fiber (C, id 3) to the deletions list. -/
theorem reconcile_positional_diff :
    (reconcileChildren storeABC 4 [elDiv, elSpan] []).2 = [2, 3] ∧
    ((reconcileChildren storeABC 4 [elDiv, elSpan] []).1.get? 4).map Fiber.child =
      some (some 5) ∧
    ((reconcileChildren storeABC 4 [elDiv, elSpan] []).1.get? 5).map
      (fun f => (f.type, f.effectTag, f.sibling, f.alternate, f.dom)) =
      some (some "div", some EffectTag.update, some 6, some 1, some 11) ∧
    ((reconcileChildren storeABC 4 [elDiv, elSpan] []).1.get? 6).map
      (fun f => (f.type, f.effectTag, f.sibling, f.alternate, f.dom)) =
      some (some "span", some EffectTag.placement, none, none, none) :=
  ⟨rfl, rfl, rfl, rfl⟩

/-- C2 counterexample: `reconcileChildren` does mutate a fiber of the current
tree. In `storeABC` fiber 2 (B) is reachable from the current root 0 (via
`child` 1 then `sibling` 2), fiber 4 is the work-in-progress parent whose
alternate is 0, and reconciling flips B's `effectTag` in place. -/
theorem reconcile_mutates_current_tree :
    (storeABC.get? 0).map Fiber.child = some (some 1) ∧
    (storeABC.get? 1).map Fiber.sibling = some (some 2) ∧
    (storeABC.get? 4).map Fiber.alternate = some (some 0) ∧
    ((reconcileChildren storeABC 4 [elDiv, elSpan] []).1.get? 2).map Fiber.effectTag ≠
      (storeABC.get? 2).map Fiber.effectTag := by
  refine ⟨rfl, rfl, rfl, ?_⟩
  intro h
  rw [show ((reconcileChildren storeABC 4 [elDiv, elSpan] []).1.get? 2).map Fiber.effectTag =
        some (some EffectTag.deletion) from rfl,
      show (storeABC.get? 2).map Fiber.effectTag = some (some EffectTag.placement) from rfl] at h
  exact absurd h (by decide)

/-- C3 counterexample: after `commitRoot` on a pass whose deletions list holds
fiber 1, the work-in-progress root has become the current root but the
deletions list is NOT cleared, so the claimed conjunction fails. -/
theorem commitRoot_leaves_deletions :
    ¬ (((commitRoot engine3).1.currentRoot = engine3.wipRoot) ∧
       (commitRoot engine3).1.deletions = []) := by
  intro h
  have h2 : (commitRoot engine3).1.deletions = [1] := rfl
  rw [h2] at h
  exact absurd h.2 (by decide)

/-- C3 amended: `commitRoot` makes the work-in-progress root the new current
root and clears `wipRoot`, but leaves the deletions list untouched; the
deletions list is cleared at the start of the next pass, by `render`. -/
theorem commitRoot_swaps_roots (e : Engine) :
    (commitRoot e).1.currentRoot = e.wipRoot ∧
    (commitRoot e).1.wipRoot = none ∧
    (commitRoot e).1.deletions = e.deletions ∧
    ∀ el c, (render el c e).deletions = [] :=
  ⟨rfl, rfl, rfl, fun _ _ => rfl⟩

/-- C7: in the trace of a single commit, every backend operation of the
deletions pass — in particular every removal arising from the deletions
list — occupies an index strictly below the index of every PLACEMENT attach
or UPDATE diff applied during the pass over the new tree. -/
theorem commit_deletions_first (e : Engine) (i j : Nat) (opD opT : BackendOp)
    (hD : (deletionPhase e).get? i = some opD)
    (hT : (treePhase e).get? j = some opT) :
    (commitRoot e).2.get? i = some opD ∧
    (commitRoot e).2.get? ((deletionPhase e).length + j) = some opT ∧
    i < (deletionPhase e).length + j := by
  have hlen : i < (deletionPhase e).length := (List.get?_eq_some.mp hD).1
  refine ⟨?_, ?_, ?_⟩
  · rw [commitRoot_trace, List.get?_append hlen]; exact hD
  · rw [commitRoot_trace, List.get?_append_right (by omega), Nat.add_sub_cancel_left]
    exact hT
  · have hj : j < (treePhase e).length := (List.get?_eq_some.mp hT).1
    omega

/-- Witness for `commit_deletions_first` on `engine7`: the removal of dom
node 1 precedes the placement of dom node 2. -/
theorem commit_deletions_first_witness :
    (commitRoot engine7).2.get? 0 = some (BackendOp.removeNode 0 1) ∧
    (commitRoot engine7).2.get? ((deletionPhase engine7).length + 0) =
      some (BackendOp.appendNode 0 2) ∧
    0 < (deletionPhase engine7).length + 0 :=
  commit_deletions_first engine7 0 0 (BackendOp.removeNode 0 1) (BackendOp.appendNode 0 2) rfl rfl

/-- C4: on re-evaluation of a component fiber whose alternate has a hook at
the current index, the exposed state is the fold of every updater in the
alternate hook's queue, in enqueue order, starting from the alternate hook's
state; via `renderCommitOne` the same fold is what the next render-and-commit
exposes. -/
theorem useState_folds_queue :
    (∀ (w : WipEval) (initial : Int) (oldHook : Hook),
      w.altHooks.bind (fun hs => hs.get? w.hookIndex) = some oldHook →
      (useStateStep w initial).2 = oldHook.queue.foldl (fun st a => a st) oldHook.state) ∧
    (∀ (app : CompApp) (hs : List Hook) (h0 : Hook) (initial : Int),
      app.current = some hs → hs.get? 0 = some h0 →
      ((renderCommitOne app initial).current.bind fun l => l.get? 0).map Hook.state =
        some (h0.queue.foldl (fun st a => a st) h0.state)) := by
  constructor
  · intro w initial oldHook h
    simp only [List.get?_eq_getElem?] at h
    simp [useStateStep, h]
  · intro app hs h0 initial happ hget
    simp only [List.get?_eq_getElem?] at hget
    simp [renderCommitOne, evalOneHook, useStateStep, happ, hget]

/-- Witness for `useState_folds_queue`: with queued updaters double then
increment against state 3, the exposed state after the next
render-and-commit is 7. -/
theorem useState_folds_queue_witness :
    ((renderCommitOne appTimes2Plus1 1).current.bind fun l => l.get? 0).map Hook.state =
      some 7 := by
  have h := useState_folds_queue.2 appTimes2Plus1 [hookTimes2Plus1] hookTimes2Plus1 1 rfl rfl
  rw [h]
  decide

/-- C5: after N sequential `setState (c => c + 1)` calls on the same hook,
each followed by a full render-and-commit cycle, the hook's state equals
`initial + N` (and its queue has been drained). -/
theorem counter_state_after_n_cycles (initial : Int) (N : Nat) :
    (counterCycles initial N).current = some [⟨initial + N, []⟩] := by
  induction N with
  | zero =>
    simp [counterCycles, renderCommitOne, evalOneHook, useStateStep]
  | succ n ih =>
    simp [counterCycles, ih, setStateApp, renderCommitOne, evalOneHook, useStateStep]
    ring

/-- C8 counterexample: a hook call count that varies across evaluations of the
same fiber does not fail fast — the call returns normally and silently exposes
the initial value. `wipNoAltHook`'s alternate recorded zero hooks, yet
`useState 42` succeeds with state 42. -/
theorem useState_mismatch_is_silent :
    (useStateCall (some wipNoAltHook) 42).map (fun r => r.2) = some 42 ∧
    useStateCall (some wipNoAltHook) 42 ≠ none := by
  refine ⟨rfl, ?_⟩
  intro h
  simp [useStateCall] at h

/-- C8 amended: the source has no hook-identity guard. Calling `useState`
outside a component evaluation merely crashes on the null `wipFiber`
dereference (no distinct error), and a hook call count that exceeds the
alternate's silently returns the initial value as the state. -/
theorem useState_no_identity_guard :
    (∀ i : Int, useStateCall none i = none) ∧
    (∀ (w : WipEval) (i : Int),
      w.altHooks.bind (fun hs => hs.get? w.hookIndex) = none →
      (useStateCall (some w) i).map (fun r => r.2) = some i) := by
  constructor
  · intro i; rfl
  · intro w i h
    simp only [List.get?_eq_getElem?] at h
    simp [useStateCall, useStateStep, h]

/-- Witness for `useState_no_identity_guard` at concrete inputs. -/
theorem useState_no_identity_guard_witness :
    useStateCall none 0 = none ∧
    (useStateCall (some wipNoAltHook) 7).map (fun r => r.2) = some 7 :=
  ⟨useState_no_identity_guard.1 0, useState_no_identity_guard.2 wipNoAltHook 7 rfl⟩

/-- C10: the `setState` closure reads `currentRoot.dom` and
`currentRoot.props` to build the fresh work-in-progress root, so it is
well-defined exactly when a pass has committed: with a null `currentRoot` the
scheduling step crashes, and with a non-null one it succeeds, arming the
scheduler with a fresh root whose alternate is the current root (the
null-dereference branch is unreachable). -/
theorem setState_requires_current_root :
    (∀ (q : List (Int → Int)) (a : Int → Int) (s : SchedState),
      s.currentRoot = none → (setStateSchedule q a s).2 = none) ∧
    (∀ (q : List (Int → Int)) (a : Int → Int) (s : SchedState) (cr : RootFiber),
      s.currentRoot = some cr →
      (setStateSchedule q a s).1 = q ++ [a] ∧
      (setStateSchedule q a s).2 =
        some { currentRoot := some cr, wipRoot := some ⟨cr.dom, cr.children, cr⟩,
               nextUnitOfWork := some ⟨cr.dom, cr.children, cr⟩, deletions := [] }) := by
  constructor
  · intro q a s h; simp [setStateSchedule, h]
  · intro q a s cr h; simp [setStateSchedule, h]

/-- Witness for `setState_requires_current_root` at concrete scheduler
states before and after a first commit. -/
theorem setState_requires_current_root_witness :
    (setStateSchedule [] (fun c => c + 1) schedBeforeCommit).2 = none ∧
    (setStateSchedule [] (fun c => c + 1) schedAfterCommit).2 =
      some { currentRoot := some ⟨some 0, [elDiv]⟩,
             wipRoot := some ⟨some 0, [elDiv], ⟨some 0, [elDiv]⟩⟩,
             nextUnitOfWork := some ⟨some 0, [elDiv], ⟨some 0, [elDiv]⟩⟩,
             deletions := [] } :=
  ⟨setState_requires_current_root.1 [] (fun c => c + 1) schedBeforeCommit rfl,
   (setState_requires_current_root.2 [] (fun c => c + 1) schedAfterCommit ⟨some 0, [elDiv]⟩ rfl).2⟩

end Creact
